import Mathlib

/-!
# SwiftTreeSitter grammar headers

The repository's sources are two C headers, `src/language.h` (the template) and
`src/SwiftTreeSitter/modifications/go.h` (its instance for Go).  Each declares the
entry point `tree_sitter_<name>` of a compiled tree-sitter grammar.

The development has two layers.

* The headers themselves, line by line, as lists of strings (`language_h`, `go_h`).
* The reading of a header by a C or C++ compiler: lines are lexed into preprocessing
  directives and tokens (`parseLine`), conditional inclusion and macro replacement are
  evaluated against the table of defined macros (`includeFile`, `includeAll`), and the
  resulting tokens are read as declarations (`ownDecls`).  The file `parser.h` that both
  headers include is not part of the sources: its effect on the table of macros is a
  parameter (`inc`).
-/

namespace TreeSitterHeaders

/-! ## The sources -/

/-- The file `src/language.h`: sixteen lines, the last one without a newline. -/
def language_h : List String :=
  [ "#ifndef TREE_SITTER_LANGUAGE_H_",
    "#define TREE_SITTER_LANGUAGE_H_",
    "",
    "#include <tree_sitter/parser.h>",
    "",
    "#ifdef __cplusplus",
    "extern \"C\" \x7b",
    "#endif",
    "",
    "extern TSLanguage *tree_sitter_LANGUAGE();",
    "",
    "#ifdef __cplusplus",
    "\x7d",
    "#endif",
    "",
    "#endif  // TREE_SITTER_LANGUAGE_H_" ]

/-- The file `src/SwiftTreeSitter/modifications/go.h`: the same sixteen lines for Go,
followed by one empty line. -/
def go_h : List String :=
  [ "#ifndef TREE_SITTER_GO_H_",
    "#define TREE_SITTER_GO_H_",
    "",
    "#include \"src/tree_sitter/parser.h\"",
    "",
    "#ifdef __cplusplus",
    "extern \"C\" \x7b",
    "#endif",
    "",
    "extern TSLanguage *tree_sitter_go();",
    "",
    "#ifdef __cplusplus",
    "\x7d",
    "#endif",
    "",
    "#endif  // TREE_SITTER_GO_H_",
    "" ]

/-! ## Lexing a line -/

/-- The double quote character. -/
def dquote : Char := Char.ofNat 34

/-- Characters of a C identifier. -/
def isIdentChar (c : Char) : Bool := c.isAlphanum || c == '_'

/-- Horizontal white space. -/
def isBlank (c : Char) : Bool := c == ' ' || c == '\t'

/-- Close the identifier being read (`cur`, reversed) and put it on the token stack. -/
def pushWord (cur : List Char) (acc : List String) : List String :=
  match cur with
  | [] => acc
  | _ :: _ => String.mk cur.reverse :: acc

/-- Whether the lexer is in ordinary code or inside a string literal. -/
inductive LexMode where
  | code
  | str
  deriving DecidableEq, Repr

/-- The tokens of one line of C text: identifiers and numbers (maximal runs of identifier
characters), string literals (quotes included) and single punctuation characters.  A `//`
comment ends the line.  An unterminated string literal is an error. -/
def lex : LexMode → List Char → List Char → List String → Option (List String)
  | .code, [], cur, acc => some (pushWord cur acc).reverse
  | .str, [], _, _ => none
  | .str, c :: cs, cur, acc =>
    if c = dquote then lex .code cs [] (String.mk (c :: cur).reverse :: acc)
    else lex .str cs (c :: cur) acc
  | .code, c :: cs, cur, acc =>
    if isIdentChar c then lex .code cs (c :: cur) acc
    else if isBlank c then lex .code cs [] (pushWord cur acc)
    else if c = dquote then lex .str cs [c] (pushWord cur acc)
    else if c = '/' ∧ cs.head? = some '/' then some (pushWord cur acc).reverse
    else lex .code cs [] (String.mk [c] :: pushWord cur acc)

/-- The tokens of a line of C text. -/
def tokens (cs : List Char) : Option (List String) := lex .code cs [] []

/-- Skip leading white space. -/
def dropBlanks : List Char → List Char
  | [] => []
  | c :: cs => if isBlank c then dropBlanks cs else c :: cs

/-- Split off the longest identifier at the start. -/
def spanIdent : List Char → List Char × List Char
  | [] => ([], [])
  | c :: cs =>
    if isIdentChar c then ((c :: (spanIdent cs).1), (spanIdent cs).2) else ([], c :: cs)

/-- The characters before the first `stop`, if there is one. -/
def takeUntil (stop : Char) : List Char → Option (List Char)
  | [] => none
  | c :: cs => if c = stop then some [] else (takeUntil stop cs).map (c :: ·)

/-- One logical line of a header after lexing. -/
inductive Directive where
  /-- `#ifndef NAME` -/
  | ifndef (name : String)
  /-- `#ifdef NAME` -/
  | ifdef (name : String)
  /-- `#define NAME` with an empty replacement list -/
  | define (name : String)
  /-- `#include <path>` (`angled`) or `#include "path"` -/
  | incl (angled : Bool) (path : String)
  /-- `#endif` -/
  | endif
  /-- a line of C text, as tokens -/
  | code (toks : List String)
  /-- an empty line, or one holding only white space or a comment -/
  | blank
  /-- anything else -/
  | bad
  deriving DecidableEq, Repr

/-- The file named by an `#include`, and whether it is written in angle brackets. -/
def headerName : List Char → Option (Bool × String)
  | [] => none
  | c :: cs =>
    if c = '<' then (takeUntil '>' cs).map fun p => (true, String.mk p)
    else if c = dquote then (takeUntil dquote cs).map fun p => (false, String.mk p)
    else none

/-- A directive that takes one macro name and nothing else on its line. -/
def nameDirective (mk : String → Directive) (rest : List Char) : Directive :=
  match (spanIdent rest).1, tokens (spanIdent rest).2 with
  | _ :: _, some [] => mk (String.mk (spanIdent rest).1)
  | _, _ => .bad

/-- Read the text after the `#` of a directive line. -/
def parseDirective (cs : List Char) : Directive :=
  let kw := String.mk (spanIdent (dropBlanks cs)).1
  let rest := dropBlanks (spanIdent (dropBlanks cs)).2
  if kw = "include" then
    match headerName rest with
    | some (a, p) => .incl a p
    | none => .bad
  else if kw = "endif" then
    match tokens rest with
    | some [] => .endif
    | _ => .bad
  else if kw = "ifndef" then nameDirective .ifndef rest
  else if kw = "ifdef" then nameDirective .ifdef rest
  else if kw = "define" then nameDirective .define rest
  else .bad

/-- Read one line of a header. -/
def parseLine (l : String) : Directive :=
  match dropBlanks l.data with
  | [] => .blank
  | c :: cs =>
    if c = '#' then parseDirective cs
    else
      match tokens (c :: cs) with
      | none => .bad
      | some [] => .blank
      | some (t :: ts) => .code (t :: ts)

/-- The directives and code lines of a header, empty lines dropped. -/
def directives (h : List String) : List Directive :=
  (h.map parseLine).filter (· ≠ .blank)

/-! ## Macros -/

/-- Whether a token has the shape of an identifier. -/
def isIdentShaped (t : String) : Bool :=
  match t.data with
  | [] => false
  | c :: cs => !c.isDigit && (c :: cs).all isIdentChar

/-- What a macro name is defined as: an object-like macro with its replacement list, or a
function-like macro. -/
inductive MacroDef where
  | object (replacement : List String)
  | function
  deriving DecidableEq, Repr

/-- The macros defined at some point of a translation unit, the latest definition first. -/
abbrev Macros := List (String × MacroDef)

/-- The definition of a macro name, if it has one. -/
def lookup : Macros → String → Option MacroDef
  | [], _ => none
  | (n, d) :: M, t => if t = n then some d else lookup M t

/-- What `#ifdef` tests. -/
def isDefined (M : Macros) (t : String) : Bool := (lookup M t).isSome

/-- A token during macro replacement, with the names of the macros whose replacement
produced it; those are not replaced in it again. -/
structure PTok where
  tok : String
  hide : List String
  deriving DecidableEq, Repr

/-- Replace one token; `next` is the token after it on the line.  An identifier that names
an object-like macro, and did not come out of that macro's own replacement, becomes the
macro's replacement list.  The name of a function-like macro is left alone when the next
token is not an opening parenthesis; its invocation is not modelled, and neither is the
case where the line ends after the name: the result is then `none`. -/
def expandTok (M : Macros) (t : PTok) (next : Option String) : Option (List PTok) :=
  if isIdentShaped t.tok && !decide (t.tok ∈ t.hide) then
    match lookup M t.tok with
    | none => some [t]
    | some (.object replacement) => some (replacement.map fun r => ⟨r, t.tok :: t.hide⟩)
    | some .function =>
      match next with
      | none => none
      | some n => if n = "(" then none else some [t]
  else some [t]

/-- Replace every token of a line once. -/
def expandPass (M : Macros) : List PTok → Option (List PTok)
  | [] => some []
  | t :: ts =>
    match expandTok M t (ts.head?.map PTok.tok), expandPass M ts with
    | some a, some b => some (a ++ b)
    | _, _ => none

/-- Replace the tokens of a line `n` times over (the rescanning of replaced text). -/
def expandN (M : Macros) : Nat → List PTok → Option (List PTok)
  | 0, ts => some ts
  | n + 1, ts =>
    match expandPass M ts with
    | none => none
    | some ts' => expandN M n ts'

/-- Macro replacement on a line of C text.  A token produced by `k` nested replacements
carries `k` different macro names, so after as many passes as there are macros, and one
more, nothing is left to replace (`expandN_complete`). -/
def expandLine (M : Macros) (ts : List String) : Option (List String) :=
  (expandN M (M.length + 1) (ts.map fun t => ⟨t, []⟩)).map fun r => r.map PTok.tok

/-- A token that macro replacement would still replace. -/
def Replaceable (M : Macros) (t : PTok) : Prop :=
  isIdentShaped t.tok = true ∧ t.tok ∉ t.hide ∧ ∃ r, lookup M t.tok = some (.object r)

/-- What `k` passes guarantee of a token that could still be replaced: it came out of at
least `k` nested replacements, of different macros. -/
def Deep (M : Macros) (k : Nat) (ts : List PTok) : Prop :=
  ∀ t ∈ ts, Replaceable M t →
    k ≤ t.hide.length ∧ t.hide.Nodup ∧ ∀ x ∈ t.hide, x ∈ M.map Prod.fst

/-! ## Conditional inclusion -/

/-- What a header hands to the compiler, in order. -/
inductive Out where
  /-- the place where the text of an included file stands -/
  | included (angled : Bool) (path : String)
  /-- a line of the header's own C text, macros replaced -/
  | code (toks : List String)
  deriving DecidableEq, Repr

/-- The preprocessor's state while it reads a file: the defined macros, the open
conditionals (innermost first, `true` when the group is taken) and the output so far. -/
structure PP where
  macros : Macros
  conds : List Bool
  out : List Out
  deriving DecidableEq, Repr

/-- Text is read only when every open conditional is taken. -/
def PP.active (s : PP) : Bool := s.conds.all id

/-- One directive.  `inc angled path M` is the table of macros after the file `path` has
been included with the macros `M` defined; the included file is not part of the sources.
A line of C text in a group that is taken has its macros replaced.  `#define NAME` defines
an object-like macro with an empty replacement list; defining a name again with another
definition is an error. -/
def step (inc : Bool → String → Macros → Macros) (s : PP) : Directive → Option PP
  | .ifndef m => some { s with conds := (!isDefined s.macros m) :: s.conds }
  | .ifdef m => some { s with conds := isDefined s.macros m :: s.conds }
  | .define m =>
    if s.active then
      match lookup s.macros m with
      | none => some { s with macros := (m, .object []) :: s.macros }
      | some (.object []) => some s
      | some _ => none
    else some s
  | .incl a p =>
    some (if s.active then
      { s with macros := inc a p s.macros, out := s.out ++ [Out.included a p] } else s)
  | .endif =>
    match s.conds with
    | [] => none
    | _ :: cs => some { s with conds := cs }
  | .code ts =>
    if s.active then
      match expandLine s.macros ts with
      | none => none
      | some ts' => some { s with out := s.out ++ [Out.code ts'] }
    else some s
  | .blank => some s
  | .bad => none

/-- Read the directives of a file in order. -/
def run (inc : Bool → String → Macros → Macros) : PP → List Directive → Option PP
  | s, [] => some s
  | s, d :: ds =>
    match step inc s d with
    | none => none
    | some s' => run inc s' ds

/-- Include one header with the macros `M` defined: the macros defined afterwards and the
output.  A conditional left open at the end of the file is an error. -/
def includeFile (inc : Bool → String → Macros → Macros) (M : Macros)
    (h : List String) : Option (Macros × List Out) :=
  match run inc ⟨M, [], []⟩ (h.map parseLine) with
  | some ⟨M', [], out⟩ => some (M', out)
  | _ => none

/-- Include a sequence of headers one after the other. -/
def includeAll (inc : Bool → String → Macros → Macros) :
    Macros → List (List String) → Option (Macros × List Out)
  | M, [] => some (M, [])
  | M, h :: hs =>
    match includeFile inc M h with
    | none => none
    | some (M', out) =>
      match includeAll inc M' hs with
      | none => none
      | some (M'', out') => some (M'', out ++ out')

/-- An included file that leaves the given macro names alone: it neither defines nor
undefines them. -/
def Transparent (inc : Bool → String → Macros → Macros) (names : List String) : Prop :=
  ∀ a p M m, m ∈ names → isDefined (inc a p M) m = isDefined M m

/-- An included file that defines no macro at all. -/
def incNone : Bool → String → Macros → Macros := fun _ _ M => M

/-- The identifiers in the C text of a header: the names that macro replacement could
touch. -/
def textIdents (h : List String) : List String :=
  (h.map parseLine).foldr
    (fun d acc =>
      match d with
      | .code ts => ts.filter isIdentShaped ++ acc
      | _ => acc)
    []

/-! ## Declarations -/

/-- The language a translation unit is compiled as.  In C++, and in C from the 2023
standard on, an empty parameter list `()` is a prototype for a function without
parameters; in C before that it declares a function without a prototype. -/
inductive Dialect where
  | c
  | c23
  | cxx
  deriving DecidableEq, Repr

/-- The number a token starts with. -/
def leadingNat : List Char → Nat → Nat
  | [], n => n
  | c :: cs, n => if c.isDigit then leadingNat cs (10 * n + (c.toNat - 48)) else n

/-- The dialect, from the macros the compiler predefines: `__cplusplus` in C++, and
`__STDC_VERSION__` with a value of at least `202311L` in C from the 2023 standard on. -/
def dialectOf (M : Macros) : Dialect :=
  if isDefined M "__cplusplus" then .cxx
  else
    match lookup M "__STDC_VERSION__" with
    | some (.object [v]) => if 202311 ≤ leadingNat v.data 0 then .c23 else .c
    | _ => .c

/-- A C type as far as the headers need it. -/
inductive CType where
  | named (name : String)
  | const (base : CType)
  | ptr (target : CType)
  deriving DecidableEq, Repr

/-- A storage-class specifier. -/
inductive Storage where
  | unspecified
  | external
  | static
  deriving DecidableEq, Repr

/-- What a declaration declares. -/
inductive DeclKind where
  | function
  | object
  deriving DecidableEq, Repr

/-- A declaration at file scope.  `inExternC` says that it stands inside an
`extern "C" { }` block; `params` is the parameter list as written; `prototype` says that
the declaration fixes the number and types of the arguments. -/
structure Decl where
  kind : DeclKind
  storage : Storage
  inExternC : Bool
  type : CType
  name : String
  params : List CType
  prototype : Bool
  deriving DecidableEq, Repr

/-- Cut a token stream after every `;`, opening brace and closing brace. -/
def splitItems : List String → List String → List (List String)
  | [], [] => []
  | [], c :: cur => [(c :: cur).reverse]
  | t :: ts, cur =>
    if t = ";" ∨ t = "\x7b" ∨ t = "\x7d" then (t :: cur).reverse :: splitItems ts []
    else splitItems ts (t :: cur)

/-- Keywords: identifier-shaped tokens that name nothing. -/
def keywords : List String :=
  ["extern", "static", "typedef", "auto", "register", "inline", "const", "volatile",
   "struct", "union", "enum", "void"]

/-- Whether a token is a name: identifier-shaped and not a keyword. -/
def isIdent (t : String) : Bool := isIdentShaped t && !decide (t ∈ keywords)

/-- Wrap a type in `n` pointers. -/
def ptrs : Nat → CType → CType
  | 0, t => t
  | n + 1, t => ptrs n (.ptr t)

/-- Count and drop leading `*` tokens. -/
def stars : List String → Nat × List String
  | [] => (0, [])
  | t :: ts => if t = "*" then ((stars ts).1 + 1, (stars ts).2) else (0, t :: ts)

/-- The storage-class specifier at the start of a declaration, and the tokens after it. -/
def storageOf : List String → Storage × List String
  | [] => (.unspecified, [])
  | t :: ts =>
    if t = "extern" then (.external, ts)
    else if t = "static" then (.static, ts)
    else (.unspecified, t :: ts)

/-- The type specifier of a declaration, and the tokens after it: a type name or
`struct` and a tag, possibly after `const`. -/
def typeOf : List String → Option (CType × List String)
  | [] => none
  | t :: ts =>
    if t = "const" then (typeOf ts).map fun r => (CType.const r.1, r.2)
    else if t = "struct" then
      match ts with
      | tag :: rest => if isIdent tag then some (.named ("struct " ++ tag), rest) else none
      | [] => none
    else if isIdent t then some (.named t, ts)
    else none

/-- Read one declaration `[storage] type [*...] name ;` (an object),
`[storage] type [*...] name ( ) ;` or `[storage] type [*...] name ( void ) ;` (a function).
The parameter list `( void )` is a prototype in every dialect, `( )` in every dialect but
C before the 2023 standard.  Text outside this grammar gives `none`. -/
def parseDecl (dialect : Dialect) (inC : Bool) (ts : List String) : Option Decl :=
  match typeOf (storageOf ts).2 with
  | none => none
  | some (ty, r) =>
    match (stars r).2 with
    | [name, ";"] =>
      if isIdent name then
        some ⟨.object, (storageOf ts).1, inC, ptrs (stars r).1 ty, name, [], false⟩
      else none
    | [name, "(", ")", ";"] =>
      if isIdent name then
        some ⟨.function, (storageOf ts).1, inC, ptrs (stars r).1 ty, name, [],
          decide (dialect ≠ Dialect.c)⟩
      else none
    | [name, "(", "void", ")", ";"] =>
      if isIdent name then
        some ⟨.function, (storageOf ts).1, inC, ptrs (stars r).1 ty, name, [], true⟩
      else none
    | _ => none

/-- Read the items of a translation unit.  `depth` counts the open `extern "C"` blocks,
which only C++ has. -/
def parseItems (dialect : Dialect) : Nat → List (List String) → Option (List Decl)
  | 0, [] => some []
  | _ + 1, [] => none
  | depth, item :: items =>
    if item = ["extern", "\"C\"", "\x7b"] then
      if dialect = Dialect.cxx then parseItems dialect (depth + 1) items else none
    else if item = ["\x7d"] then
      match depth with
      | 0 => none
      | d + 1 => parseItems dialect d items
    else
      match parseDecl dialect (decide (0 < depth)) item, parseItems dialect depth items with
      | some d, some ds => some (d :: ds)
      | _, _ => none

/-- The header's own C text: the tokens of its code lines, included files left out. -/
def ownTokens : List Out → List String
  | [] => []
  | .included _ _ :: os => ownTokens os
  | .code ts :: os => ts ++ ownTokens os

/-- The declarations a header makes itself. -/
def ownDecls (dialect : Dialect) (out : List Out) : Option (List Decl) :=
  parseItems dialect 0 (splitItems (ownTokens out) [])

/-- The declarations made by including the headers `hs` in order in a translation unit
whose compiler predefines the macros `M`.  The result is `none` when a header is
malformed, invokes a function-like macro, or has text outside the grammar of
`parseDecl`. -/
def declarations (inc : Bool → String → Macros → Macros) (M : Macros)
    (hs : List (List String)) : Option (List Decl) :=
  match includeAll inc M hs with
  | none => none
  | some (_, out) => ownDecls (dialectOf M) out

/-- The entry point of the grammar called `name`, as the headers declare it: an external
function `tree_sitter_<name>` written with the parameter list `()` that returns
`TSLanguage *`. -/
def entryPoint (name : String) (dialect : Dialect) : Decl :=
  ⟨.function, .external, decide (dialect = Dialect.cxx), .ptr (.named "TSLanguage"),
    "tree_sitter_" ++ name, [], decide (dialect ≠ Dialect.c)⟩

/-- The shape both headers share: an include guard `G` around the inclusion of `parser.h`
and the declaration of `tree_sitter_<name>`, wrapped in `extern "C"` for C++. -/
def guardedHeader (G : String) (angled : Bool) (path : String) (name : String) :
    List Directive :=
  [ .ifndef G, .define G, .blank,
    .incl angled path, .blank,
    Directive.ifdef "__cplusplus", .code ["extern", "\"C\"", "\x7b"], .endif, .blank,
    .code ["extern", "TSLanguage", "*", "tree_sitter_" ++ name, "(", ")", ";"], .blank,
    Directive.ifdef "__cplusplus", .code ["\x7d"], .endif, .blank,
    .endif ]

/-- What a guarded header emits when it is read: the included file, then the entry
point's declaration, inside `extern "C"` when `cxx`. -/
def guardedOut (angled : Bool) (path : String) (name : String) (cxx : Bool) : List Out :=
  if cxx then
    [ .included angled path, .code ["extern", "\"C\"", "\x7b"],
      .code ["extern", "TSLanguage", "*", "tree_sitter_" ++ name, "(", ")", ";"],
      .code ["\x7d"] ]
  else
    [ .included angled path,
      .code ["extern", "TSLanguage", "*", "tree_sitter_" ++ name, "(", ")", ";"] ]

/-- The macro a header uses as its include guard: the one its first line tests with
`#ifndef` and its second line defines. -/
def guardOf (h : List String) : Option String :=
  match directives h with
  | .ifndef g :: .define g' :: _ => if g = g' then some g else none
  | _ => none

/-! ## The template and its instances -/

/-- Replace every occurrence of `pat` by `rep`, reading from the left; `skip` counts the
characters of a match still to be passed over. -/
def replaceAux (pat rep : List Char) : Nat → List Char → List Char
  | _, [] => []
  | skip + 1, _ :: cs => replaceAux pat rep skip cs
  | 0, c :: cs =>
    if pat.isPrefixOf (c :: cs) then rep ++ replaceAux pat rep (pat.length - 1) cs
    else c :: replaceAux pat rep 0 cs

/-- Whether a line is a preprocessor directive. -/
def isDirectiveLine (l : List Char) : Bool :=
  match dropBlanks l with
  | [] => false
  | c :: _ => c == '#'

/-- The template instantiated for a language, in the words of the specification:
`LANGUAGE` is replaced by the language's name, in capitals on the preprocessor lines (where
it is part of the include-guard macro) and as given elsewhere. -/
def instantiateTemplate (name : String) (template : List String) : List String :=
  template.map fun l =>
    String.mk (replaceAux "LANGUAGE".data
      (if isDirectiveLine l.data then name.data.map Char.toUpper else name.data) 0 l.data)

/-- Forget which file an `#include` names. -/
def forgetInclude : Directive → Directive
  | .incl _ _ => .incl false ""
  | d => d

/-- The last component of a path. -/
def baseName (path : List Char) : List Char :=
  match path with
  | [] => []
  | c :: cs => if cs.contains '/' then baseName cs else if c = '/' then cs else c :: cs

/-- The files a header includes. -/
def includesOf (h : List String) : List String :=
  (directives h).filterMap fun d =>
    match d with
    | .incl _ p => some p
    | _ => none

/-! ## Sequences of inclusions -/

/-- Keep the first occurrence of every header of a sequence. -/
def firstOccurrences : List (List String) → List (List String)
  | [] => []
  | h :: hs => h :: (firstOccurrences hs).filter (· ≠ h)

/-- A file whose lines read as the guarded header with guard `G`, possibly followed by an
empty line. -/
def Guarded (h : List String) (G : String) : Prop :=
  ∃ (a : Bool) (p name : String),
    h.map parseLine = guardedHeader G a p name ∨
      h.map parseLine = guardedHeader G a p name ++ [.blank]

/-! ## Reading the headers -/

theorem language_h_lines :
    language_h.map parseLine =
      guardedHeader "TREE_SITTER_LANGUAGE_H_" true "tree_sitter/parser.h" "LANGUAGE" := by
  decide

theorem go_h_lines :
    go_h.map parseLine =
      guardedHeader "TREE_SITTER_GO_H_" false "src/tree_sitter/parser.h" "go" ++ [.blank] := by
  decide

theorem instance_go_lines :
    (instantiateTemplate "go" language_h).map parseLine =
      guardedHeader "TREE_SITTER_GO_H_" true "tree_sitter/parser.h" "go" := by
  decide

theorem run_append (inc : Bool → String → Macros → Macros) (ds es : List Directive) :
    ∀ s : PP, run inc s (ds ++ es) = (run inc s ds).bind fun s' => run inc s' es := by
  induction ds with
  | nil => intro s; rfl
  | cons d ds ih =>
    intro s
    simp only [List.cons_append, run]
    cases step inc s d with
    | none => rfl
    | some s' => exact ih s'

/-! ## Macro replacement where no macro is mentioned -/

theorem isDefined_eq_false (M : Macros) (t : String) :
    isDefined M t = false ↔ lookup M t = none := by
  simp [isDefined]

theorem lookup_cons_ne (M : Macros) (G t : String) (d : MacroDef) (h : t ≠ G) :
    lookup ((G, d) :: M) t = lookup M t := by
  simp [lookup, h]

theorem isDefined_cons_self (M : Macros) (G : String) (d : MacroDef) :
    isDefined ((G, d) :: M) G = true := by
  simp [isDefined, lookup]

theorem isDefined_cons_ne (M : Macros) (G t : String) (d : MacroDef) (h : t ≠ G) :
    isDefined ((G, d) :: M) t = isDefined M t := by
  simp [isDefined, lookup, h]

theorem expandTok_id (M : Macros) (t : PTok) (next : Option String)
    (h : isIdentShaped t.tok = true → lookup M t.tok = none) :
    expandTok M t next = some [t] := by
  unfold expandTok
  split
  · rename_i hc
    simp only [Bool.and_eq_true] at hc
    rw [h hc.1]
  · rfl

theorem expandPass_id (M : Macros) (ts : List PTok)
    (h : ∀ t ∈ ts, isIdentShaped t.tok = true → lookup M t.tok = none) :
    expandPass M ts = some ts := by
  induction ts with
  | nil => rfl
  | cons t ts ih =>
    simp only [expandPass, expandTok_id M t _ (h t (List.mem_cons_self _ _)),
      ih (fun u hu => h u (List.mem_cons_of_mem _ hu)), List.singleton_append]

theorem expandN_id (M : Macros) (n : Nat) (ts : List PTok)
    (h : ∀ t ∈ ts, isIdentShaped t.tok = true → lookup M t.tok = none) :
    expandN M n ts = some ts := by
  induction n with
  | zero => rfl
  | succ n ih => simp only [expandN, expandPass_id M ts h, ih]

/-- A line that mentions no macro is left as it is. -/
theorem expandLine_id (M : Macros) (ts : List String)
    (h : ∀ t ∈ ts, isIdentShaped t = true → lookup M t = none) :
    expandLine M ts = some ts := by
  unfold expandLine
  rw [expandN_id M _ _ (by
    intro t ht
    simp only [List.mem_map] at ht
    obtain ⟨u, hu, rfl⟩ := ht
    exact h u hu)]
  simp [Function.comp_def]

/-! ## Macro replacement runs to the end -/

theorem lookup_mem_keys (M : Macros) (t : String) (d : MacroDef) :
    lookup M t = some d → t ∈ M.map Prod.fst := by
  induction M with
  | nil => intro h; simp [lookup] at h
  | cons e M ih =>
    obtain ⟨n, d'⟩ := e
    intro h
    simp only [lookup] at h
    by_cases hn : t = n
    · simp [hn]
    · rw [if_neg hn] at h
      exact List.mem_cons_of_mem _ (ih h)

theorem expandTok_deep (M : Macros) (k : Nat) (t : PTok) (next : Option String)
    (a : List PTok) (ha : expandTok M t next = some a) (ht : Deep M k [t]) :
    Deep M (k + 1) a := by
  unfold expandTok at ha
  split at ha
  · rename_i hc
    simp only [Bool.and_eq_true, Bool.not_eq_true', decide_eq_false_iff_not] at hc
    split at ha
    · rename_i hl
      simp only [Option.some.injEq] at ha
      subst ha
      intro u hu hr
      simp only [List.mem_singleton] at hu
      subst hu
      obtain ⟨_, _, r, hr⟩ := hr
      rw [hl] at hr
      exact absurd hr (by simp)
    · rename_i repl hl
      simp only [Option.some.injEq] at ha
      subst ha
      have hdeep := ht t (List.mem_singleton_self _) ⟨hc.1, hc.2, repl, hl⟩
      intro u hu _
      simp only [List.mem_map] at hu
      obtain ⟨r, _, rfl⟩ := hu
      refine ⟨?_, ?_, ?_⟩
      · simp only [List.length_cons]
        exact Nat.succ_le_succ hdeep.1
      · exact List.nodup_cons.2 ⟨hc.2, hdeep.2.1⟩
      · intro x hx
        simp only [List.mem_cons] at hx
        rcases hx with rfl | hx
        · exact lookup_mem_keys M _ _ hl
        · exact hdeep.2.2 x hx
    · rename_i hl
      have hnot : ¬ Replaceable M t := by
        rintro ⟨_, _, r, hr⟩
        rw [hl] at hr
        exact absurd hr (by simp)
      split at ha
      · exact absurd ha (by simp)
      · split at ha
        · exact absurd ha (by simp)
        · simp only [Option.some.injEq] at ha
          subst ha
          intro u hu hr
          simp only [List.mem_singleton] at hu
          subst hu
          exact absurd hr hnot
  · rename_i hc
    simp only [Option.some.injEq] at ha
    subst ha
    intro u hu hr
    simp only [List.mem_singleton] at hu
    subst hu
    obtain ⟨h1, h2, _⟩ := hr
    exact absurd (by simp [h1, h2]) hc

theorem expandPass_deep (M : Macros) (k : Nat) :
    ∀ ts r : List PTok, expandPass M ts = some r → Deep M k ts → Deep M (k + 1) r := by
  intro ts
  induction ts with
  | nil =>
    intro r hr _
    simp only [expandPass, Option.some.injEq] at hr
    subst hr
    intro t ht
    exact absurd ht (List.not_mem_nil _)
  | cons t ts ih =>
    intro r hr hd
    simp only [expandPass] at hr
    cases ha : expandTok M t (ts.head?.map PTok.tok) with
    | none => rw [ha] at hr; exact absurd hr (by simp)
    | some a =>
      cases hb : expandPass M ts with
      | none => rw [ha, hb] at hr; exact absurd hr (by simp)
      | some b =>
        rw [ha, hb] at hr
        simp only [Option.some.injEq] at hr
        subst hr
        have h1 : Deep M (k + 1) a :=
          expandTok_deep M k t _ a ha (fun u hu => hd u (by
            simp only [List.mem_singleton] at hu
            rw [hu]
            exact List.mem_cons_self _ _))
        have h2 : Deep M (k + 1) b :=
          ih b hb (fun u hu => hd u (List.mem_cons_of_mem _ hu))
        intro u hu
        rcases List.mem_append.1 hu with hu | hu
        · exact h1 u hu
        · exact h2 u hu

theorem expandN_deep (M : Macros) (n : Nat) :
    ∀ (k : Nat) (ts r : List PTok), expandN M n ts = some r → Deep M k ts →
      Deep M (k + n) r := by
  induction n with
  | zero =>
    intro k ts r hr hd
    simp only [expandN, Option.some.injEq] at hr
    subst hr
    exact hd
  | succ n ih =>
    intro k ts r hr hd
    simp only [expandN] at hr
    cases hp : expandPass M ts with
    | none => rw [hp] at hr; exact absurd hr (by simp)
    | some ts' =>
      rw [hp] at hr
      have := ih (k + 1) ts' r hr (expandPass_deep M k ts ts' hp hd)
      rw [Nat.add_assoc, Nat.add_comm 1 n] at this
      exact this

/-- The passes of `expandLine` are enough: in its result no token is left that macro
replacement would replace. -/
theorem expandN_complete (M : Macros) (ts : List String) (r : List PTok)
    (h : expandN M (M.length + 1) (ts.map fun t => ⟨t, []⟩) = some r) :
    ∀ t ∈ r, ¬ Replaceable M t := by
  intro t ht hrep
  have h0 : Deep M 0 (ts.map fun t => (⟨t, []⟩ : PTok)) := by
    intro u hu _
    simp only [List.mem_map] at hu
    obtain ⟨s, _, rfl⟩ := hu
    exact ⟨Nat.le_refl _, List.nodup_nil, fun x hx => absurd hx (List.not_mem_nil _)⟩
  have hd := expandN_deep M (M.length + 1) 0 _ r h h0 t ht hrep
  have hle : t.hide.length ≤ (M.map Prod.fst).length :=
    (List.subperm_of_subset hd.2.1 hd.2.2).length_le
  rw [List.length_map] at hle
  omega

/-! ## Reading a guarded header -/

theorem run_guarded_fresh (inc : Bool → String → Macros → Macros)
    (M : Macros) (G : String) (a : Bool) (p name : String) (hG : lookup M G = none)
    (hid : ∀ t ∈ ["extern", "TSLanguage", "tree_sitter_" ++ name],
      lookup (inc a p ((G, .object []) :: M)) t = none) :
    run inc ⟨M, [], []⟩ (guardedHeader G a p name) =
      some ⟨inc a p ((G, .object []) :: M), [],
        guardedOut a p name (isDefined (inc a p ((G, .object []) :: M)) "__cplusplus")⟩ := by
  have e1 : expandLine (inc a p ((G, .object []) :: M)) ["extern", "\"C\"", "\x7b"] =
      some ["extern", "\"C\"", "\x7b"] := by
    apply expandLine_id
    intro t ht hs
    simp only [List.mem_cons, List.mem_singleton, List.not_mem_nil, or_false] at ht
    rcases ht with rfl | rfl | rfl
    · exact hid _ (by simp)
    · exact absurd hs (by decide)
    · exact absurd hs (by decide)
  have e2 : expandLine (inc a p ((G, .object []) :: M))
      ["extern", "TSLanguage", "*", "tree_sitter_" ++ name, "(", ")", ";"] =
      some ["extern", "TSLanguage", "*", "tree_sitter_" ++ name, "(", ")", ";"] := by
    apply expandLine_id
    intro t ht hs
    simp only [List.mem_cons, List.mem_singleton, List.not_mem_nil, or_false] at ht
    rcases ht with rfl | rfl | rfl | rfl | rfl | rfl | rfl
    · exact hid _ (by simp)
    · exact hid _ (by simp)
    · exact absurd hs (by decide)
    · exact hid _ (by simp)
    · exact absurd hs (by decide)
    · exact absurd hs (by decide)
    · exact absurd hs (by decide)
  have e3 : expandLine (inc a p ((G, .object []) :: M)) ["\x7d"] = some ["\x7d"] := by
    apply expandLine_id
    intro t ht hs
    simp only [List.mem_singleton] at ht
    subst ht
    exact absurd hs (by decide)
  have hG' : isDefined M G = false := (isDefined_eq_false M G).2 hG
  cases hc : isDefined (inc a p ((G, .object []) :: M)) "__cplusplus"
  · simp [guardedHeader, guardedOut, run, step, PP.active, hG, hG', hc, e2]
  · simp [guardedHeader, guardedOut, run, step, PP.active, hG, hG', hc, e1, e2, e3]

theorem run_guarded_seen (inc : Bool → String → Macros → Macros)
    (M : Macros) (G : String) (a : Bool) (p name : String) (hG : isDefined M G = true) :
    run inc ⟨M, [], []⟩ (guardedHeader G a p name) = some ⟨M, [], []⟩ := by
  cases hc : isDefined M "__cplusplus"
  · simp [guardedHeader, run, step, PP.active, hG, hc]
  · simp [guardedHeader, run, step, PP.active, hG, hc]


theorem includeFile_fresh (inc : Bool → String → Macros → Macros)
    (h : List String) (M : Macros) (G : String) (a : Bool) (p name : String)
    (hl : h.map parseLine = guardedHeader G a p name ∨
      h.map parseLine = guardedHeader G a p name ++ [.blank])
    (hG : lookup M G = none)
    (hid : ∀ t ∈ ["extern", "TSLanguage", "tree_sitter_" ++ name],
      lookup (inc a p ((G, .object []) :: M)) t = none) :
    includeFile inc M h =
      some (inc a p ((G, .object []) :: M),
        guardedOut a p name (isDefined (inc a p ((G, .object []) :: M)) "__cplusplus")) := by
  unfold includeFile
  rcases hl with hl | hl
  · rw [hl, run_guarded_fresh inc M G a p name hG hid]
  · rw [hl, run_append, run_guarded_fresh inc M G a p name hG hid]
    simp [run, step]

theorem includeFile_seen (inc : Bool → String → Macros → Macros)
    (h : List String) (M : Macros) (G : String) (a : Bool) (p name : String)
    (hl : h.map parseLine = guardedHeader G a p name ∨
      h.map parseLine = guardedHeader G a p name ++ [.blank])
    (hG : isDefined M G = true) :
    includeFile inc M h = some (M, []) := by
  unfold includeFile
  rcases hl with hl | hl
  · rw [hl, run_guarded_seen inc M G a p name hG]
  · rw [hl, run_append, run_guarded_seen inc M G a p name hG]
    simp [run, step]

/-- A directive that is neither `#define` nor `#include` leaves the macros as they are. -/
theorem step_macros (inc : Bool → String → Macros → Macros) (s s' : PP) (d : Directive)
    (hd : (∀ m, d ≠ .define m) ∧ ∀ a p, d ≠ .incl a p) (hs : step inc s d = some s') :
    s'.macros = s.macros := by
  cases d with
  | ifndef m => simp only [step, Option.some.injEq] at hs; rw [← hs]
  | ifdef m => simp only [step, Option.some.injEq] at hs; rw [← hs]
  | define m => exact absurd rfl (hd.1 m)
  | incl a p => exact absurd rfl (hd.2 a p)
  | endif =>
    simp only [step] at hs
    split at hs
    · exact absurd hs (by simp)
    · simp only [Option.some.injEq] at hs; rw [← hs]
  | code ts =>
    simp only [step] at hs
    split at hs
    · split at hs
      · exact absurd hs (by simp)
      · simp only [Option.some.injEq] at hs; rw [← hs]
    · simp only [Option.some.injEq] at hs; rw [← hs]
  | blank => simp only [step, Option.some.injEq] at hs; rw [← hs]
  | bad => exact absurd hs (by simp [step])

theorem run_macros (inc : Bool → String → Macros → Macros) (ds : List Directive)
    (hd : ∀ d ∈ ds, (∀ m, d ≠ .define m) ∧ ∀ a p, d ≠ .incl a p) :
    ∀ s s' : PP, run inc s ds = some s' → s'.macros = s.macros := by
  induction ds with
  | nil =>
    intro s s' hs
    simp only [run, Option.some.injEq] at hs
    rw [hs]
  | cons d ds ih =>
    intro s s' hs
    simp only [run] at hs
    cases h1 : step inc s d with
    | none => rw [h1] at hs; exact absurd hs (by simp)
    | some s1 =>
      rw [h1] at hs
      rw [ih (fun e he => hd e (List.mem_cons_of_mem _ he)) s1 s' hs,
        step_macros inc s s1 d (hd d (List.mem_cons_self _ _)) h1]

/-- Whatever the macros, a guarded header that is read through either was skipped, or
leaves the macros of its `#include`, read with the guard defined. -/
theorem includeFile_some (inc : Bool → String → Macros → Macros)
    (h : List String) (M M' : Macros) (out : List Out) (G : String) (a : Bool)
    (p name : String)
    (hl : h.map parseLine = guardedHeader G a p name ∨
      h.map parseLine = guardedHeader G a p name ++ [.blank])
    (hf : includeFile inc M h = some (M', out)) :
    (isDefined M G = true ∧ M' = M ∧ out = []) ∨
      (isDefined M G = false ∧ M' = inc a p ((G, .object []) :: M)) := by
  cases hG : isDefined M G
  · right
    refine ⟨rfl, ?_⟩
    have hG' : lookup M G = none := (isDefined_eq_false M G).1 hG
    have hsplit : ∀ tail : List Directive, guardedHeader G a p name ++ tail =
        [.ifndef G, .define G, .blank, .incl a p] ++
          ((guardedHeader G a p name).drop 4 ++ tail) := fun _ => rfl
    have hpre : run inc ⟨M, [], []⟩ [.ifndef G, .define G, .blank, .incl a p] =
        some ⟨inc a p ((G, .object []) :: M), [true], [Out.included a p]⟩ := by
      simp [run, step, PP.active, hG, hG']
    have key : ∀ tail : List Directive, (∀ d ∈ tail, d = Directive.blank) →
        ∀ s' : PP, run inc ⟨M, [], []⟩ (guardedHeader G a p name ++ tail) = some s' →
          s'.macros = inc a p ((G, .object []) :: M) := by
      intro tail htail s' hs'
      rw [hsplit, run_append, hpre] at hs'
      refine run_macros inc _ ?_ _ s' hs'
      intro d hd
      simp only [guardedHeader, List.drop, List.mem_append, List.mem_cons,
        List.not_mem_nil, or_false] at hd
      rcases hd with (hd | hd | hd | hd | hd | hd | hd | hd | hd | hd | hd | hd) | hd
      all_goals first
        | (subst hd; exact ⟨fun _ => by simp, fun _ _ => by simp⟩)
        | (rw [htail d hd]; exact ⟨fun _ => by simp, fun _ _ => by simp⟩)
    unfold includeFile at hf
    rcases hl with hl | hl
    · rw [hl] at hf
      have hk := key [] (by simp)
      rw [List.append_nil] at hk
      split at hf
      · rename_i M1 out1 heq
        simp only [Option.some.injEq, Prod.mk.injEq] at hf
        rw [← hf.1]
        exact hk _ heq
      · exact absurd hf (by simp)
    · rw [hl] at hf
      have hk := key [.blank] (by simp)
      split at hf
      · rename_i M1 out1 heq
        simp only [Option.some.injEq, Prod.mk.injEq] at hf
        rw [← hf.1]
        exact hk _ heq
      · exact absurd hf (by simp)
  · left
    rw [includeFile_seen inc h M G a p name hl hG] at hf
    simp only [Option.some.injEq, Prod.mk.injEq] at hf
    exact ⟨rfl, hf.1.symm, hf.2.symm⟩


theorem ownDecls_nil (dialect : Dialect) : ownDecls dialect [] = some [] := rfl

theorem ownDecls_go (a : Bool) (p : String) (dialect : Dialect) :
    ownDecls dialect (guardedOut a p "go" (decide (dialect = Dialect.cxx))) =
      some [entryPoint "go" dialect] := by
  cases dialect
  · simp only [guardedOut, ownDecls, ownTokens]; decide
  · simp only [guardedOut, ownDecls, ownTokens]; decide
  · simp only [guardedOut, ownDecls, ownTokens]; decide

theorem ownDecls_LANGUAGE (a : Bool) (p : String) (dialect : Dialect) :
    ownDecls dialect (guardedOut a p "LANGUAGE" (decide (dialect = Dialect.cxx))) =
      some [entryPoint "LANGUAGE" dialect] := by
  cases dialect
  · simp only [guardedOut, ownDecls, ownTokens]; decide
  · simp only [guardedOut, ownDecls, ownTokens]; decide
  · simp only [guardedOut, ownDecls, ownTokens]; decide

theorem ownDecls_LANGUAGE_go (a a' : Bool) (p p' : String) (dialect : Dialect) :
    ownDecls dialect (guardedOut a p "LANGUAGE" (decide (dialect = Dialect.cxx)) ++
        guardedOut a' p' "go" (decide (dialect = Dialect.cxx))) =
      some [entryPoint "LANGUAGE" dialect, entryPoint "go" dialect] := by
  cases dialect
  · simp only [guardedOut, ownDecls, ownTokens, List.cons_append, List.nil_append]; decide
  · simp only [guardedOut, ownDecls, ownTokens, List.cons_append, List.nil_append]; decide
  · simp only [guardedOut, ownDecls, ownTokens, List.cons_append, List.nil_append]; decide

theorem ownDecls_go_LANGUAGE (a a' : Bool) (p p' : String) (dialect : Dialect) :
    ownDecls dialect (guardedOut a p "go" (decide (dialect = Dialect.cxx)) ++
        guardedOut a' p' "LANGUAGE" (decide (dialect = Dialect.cxx))) =
      some [entryPoint "go" dialect, entryPoint "LANGUAGE" dialect] := by
  cases dialect
  · simp only [guardedOut, ownDecls, ownTokens, List.cons_append, List.nil_append]; decide
  · simp only [guardedOut, ownDecls, ownTokens, List.cons_append, List.nil_append]; decide
  · simp only [guardedOut, ownDecls, ownTokens, List.cons_append, List.nil_append]; decide

/-- The translation unit is C++ exactly when `__cplusplus` is defined. -/
theorem isDefined_cplusplus (M : Macros) :
    isDefined M "__cplusplus" = decide (dialectOf M = Dialect.cxx) := by
  unfold dialectOf
  cases h : isDefined M "__cplusplus"
  · simp only [Bool.false_eq_true, if_false]
    split
    · split <;> simp
    · simp
  · simp

/-! ## Included files that leave macros alone -/

theorem transparent_incNone (names : List String) : Transparent incNone names :=
  fun _ _ _ _ _ => rfl

theorem transparent_after (inc : Bool → String → Macros → Macros) (names : List String)
    (h : Transparent inc names) (a : Bool) (p G m : String) (d : MacroDef) (M : Macros)
    (hm : m ∈ names) (hne : m ≠ G) :
    isDefined (inc a p ((G, d) :: M)) m = isDefined M m := by
  rw [h a p _ m hm, isDefined_cons_ne M G m d hne]

theorem transparent_guard (inc : Bool → String → Macros → Macros) (names : List String)
    (h : Transparent inc names) (a : Bool) (p G : String) (d : MacroDef) (M : Macros)
    (hm : G ∈ names) :
    isDefined (inc a p ((G, d) :: M)) G = true := by
  rw [h a p _ G hm, isDefined_cons_self]

/-- A guarded header read for the first time in a translation unit where none of the
identifiers of its text is a macro: the output is the guarded text, inside `extern "C"`
when `__cplusplus` is defined. -/
theorem includeFile_clean (inc : Bool → String → Macros → Macros) (names : List String)
    (hinc : Transparent inc names) (h : List String) (G : String) (a : Bool)
    (p name : String)
    (hl : h.map parseLine = guardedHeader G a p name ∨
      h.map parseLine = guardedHeader G a p name ++ [.blank])
    (hids : ∀ t ∈ ["extern", "TSLanguage", "tree_sitter_" ++ name, "__cplusplus"],
      t ∈ names ∧ t ≠ G)
    (M : Macros) (hG : isDefined M G = false)
    (hM : ∀ t ∈ ["extern", "TSLanguage", "tree_sitter_" ++ name], isDefined M t = false) :
    includeFile inc M h =
      some (inc a p ((G, .object []) :: M),
        guardedOut a p name (isDefined M "__cplusplus")) := by
  have hafter : ∀ m ∈ names, m ≠ G →
      isDefined (inc a p ((G, .object []) :: M)) m = isDefined M m :=
    fun m hm hne => transparent_after inc names hinc a p G m _ M hm hne
  have hid : ∀ t ∈ ["extern", "TSLanguage", "tree_sitter_" ++ name],
      lookup (inc a p ((G, .object []) :: M)) t = none := by
    intro t ht
    have ht' : t ∈ ["extern", "TSLanguage", "tree_sitter_" ++ name, "__cplusplus"] := by
      simp only [List.mem_cons, List.mem_singleton, List.not_mem_nil, or_false] at ht ⊢
      rcases ht with ht | ht | ht
      · exact Or.inl ht
      · exact Or.inr (Or.inl ht)
      · exact Or.inr (Or.inr (Or.inl ht))
    rw [← isDefined_eq_false, hafter t (hids t ht').1 (hids t ht').2]
    exact hM t ht
  rw [includeFile_fresh inc h M G a p name hl ((isDefined_eq_false M G).1 hG) hid,
    hafter "__cplusplus" (hids _ (by simp)).1 (hids _ (by simp)).2]

/-! ## Repeated inclusion -/

/-- After a guarded header has been read through, its guard is defined, and so is every
name the included file leaves alone that was defined before. -/
theorem includeFile_guard_after (inc : Bool → String → Macros → Macros)
    (names : List String) (hinc : Transparent inc names) (h : List String) (G : String)
    (hg : Guarded h G) (hG : G ∈ names) (M M' : Macros) (out : List Out)
    (hf : includeFile inc M h = some (M', out)) :
    isDefined M' G = true ∧ ∀ m ∈ names, isDefined M m = true → isDefined M' m = true := by
  obtain ⟨a, p, name, hl⟩ := hg
  rcases includeFile_some inc h M M' out G a p name hl hf with ⟨hd, rfl, _⟩ | ⟨_, rfl⟩
  · exact ⟨hd, fun _ _ hm => hm⟩
  · refine ⟨transparent_guard inc names hinc a p G _ M hG, fun m hm hdef => ?_⟩
    by_cases hne : m = G
    · rw [hne]; exact transparent_guard inc names hinc a p G _ M hG
    · rw [transparent_after inc names hinc a p G m _ M hm hne]; exact hdef

theorem includeFile_skip (inc : Bool → String → Macros → Macros) (h : List String)
    (G : String) (hg : Guarded h G) (M : Macros) (hG : isDefined M G = true) :
    includeFile inc M h = some (M, []) := by
  obtain ⟨a, p, name, hl⟩ := hg
  exact includeFile_seen inc h M G a p name hl hG

theorem includeAll_cons (inc : Bool → String → Macros → Macros)
    (M M' : Macros) (h : List String) (hs : List (List String)) (out : List Out)
    (hf : includeFile inc M h = some (M', out)) :
    includeAll inc M (h :: hs) = (includeAll inc M' hs).map fun r => (r.1, out ++ r.2) := by
  simp only [includeAll, hf]
  cases includeAll inc M' hs with
  | none => rfl
  | some r => rfl

theorem includeAll_cons_none (inc : Bool → String → Macros → Macros)
    (M : Macros) (h : List String) (hs : List (List String))
    (hf : includeFile inc M h = none) :
    includeAll inc M (h :: hs) = none := by
  simp only [includeAll, hf]

theorem includeAll_replicate_seen (inc : Bool → String → Macros → Macros)
    (h : List String) (G : String) (hg : Guarded h G) (M : Macros)
    (hG : isDefined M G = true) :
    ∀ n : Nat, includeAll inc M (List.replicate n h) = some (M, []) := by
  intro n
  induction n with
  | zero => rfl
  | succ n ih =>
    rw [List.replicate_succ, includeAll_cons inc M M h _ [] (includeFile_skip inc h G hg M hG),
      ih]
    rfl

theorem includeAll_replicate (inc : Bool → String → Macros → Macros)
    (names : List String) (hinc : Transparent inc names) (h : List String) (G : String)
    (hg : Guarded h G) (hG : G ∈ names) (M : Macros) (n : Nat) :
    includeAll inc M (List.replicate (n + 1) h) = includeAll inc M [h] := by
  cases hf : includeFile inc M h with
  | none =>
    rw [List.replicate_succ, includeAll_cons_none inc M h _ hf,
      includeAll_cons_none inc M h _ hf]
  | some r =>
    obtain ⟨M', out⟩ := r
    have hdef := (includeFile_guard_after inc names hinc h G hg hG M M' out hf).1
    rw [List.replicate_succ, includeAll_cons inc M M' h _ out hf,
      includeAll_cons inc M M' h _ out hf,
      includeAll_replicate_seen inc h G hg M' hdef n]
    rfl

theorem guarded_go_h : Guarded go_h "TREE_SITTER_GO_H_" :=
  ⟨_, _, _, Or.inr go_h_lines⟩

theorem guarded_language_h : Guarded language_h "TREE_SITTER_LANGUAGE_H_" :=
  ⟨_, _, _, Or.inl language_h_lines⟩

theorem includeAll_filter_seen (inc : Bool → String → Macros → Macros)
    (names : List String) (hinc : Transparent inc names) (h : List String) (G : String)
    (hg : Guarded h G) (hG : G ∈ names) (xs : List (List String)) :
    (∀ x ∈ xs, ∃ G', Guarded x G' ∧ G' ∈ names) →
    ∀ M : Macros, isDefined M G = true →
      includeAll inc M xs = includeAll inc M (xs.filter (· ≠ h)) := by
  induction xs with
  | nil => intro _ M _; rfl
  | cons x xs ih =>
    intro hxs M hM
    have hxs' : ∀ y ∈ xs, ∃ G', Guarded y G' ∧ G' ∈ names :=
      fun y hy => hxs y (List.mem_cons_of_mem _ hy)
    by_cases hx : x = h
    · subst hx
      have hfil : (x :: xs).filter (· ≠ x) = xs.filter (· ≠ x) := by
        simp
      have hmap : ∀ r : Option (Macros × List Out),
          (r.map fun r => (r.1, ([] : List Out) ++ r.2)) = r := by
        intro r
        cases r with
        | none => rfl
        | some r => rfl
      rw [hfil, includeAll_cons inc M M x xs [] (includeFile_skip inc x G hg M hM), hmap]
      exact ih hxs' M hM
    · obtain ⟨G', hg', hG'⟩ := hxs x (List.mem_cons_self _ _)
      have hfil : (x :: xs).filter (· ≠ h) = x :: xs.filter (· ≠ h) := by
        simp [hx]
      rw [hfil]
      cases hf : includeFile inc M x with
      | none =>
        rw [includeAll_cons_none inc M x _ hf, includeAll_cons_none inc M x _ hf]
      | some r =>
        obtain ⟨M', out⟩ := r
        have hkeep := (includeFile_guard_after inc names hinc x G' hg' hG' M M' out hf).2
        rw [includeAll_cons inc M M' x xs out hf, includeAll_cons inc M M' x _ out hf,
          ih hxs' M' (hkeep G hG hM)]

theorem mem_firstOccurrences (hs : List (List String)) :
    ∀ x ∈ firstOccurrences hs, x ∈ hs := by
  induction hs with
  | nil => intro x hx; exact hx
  | cons h hs ih =>
    intro x hx
    simp only [firstOccurrences, List.mem_cons, List.mem_filter] at hx
    rcases hx with hx | ⟨hx, _⟩
    · exact hx ▸ List.mem_cons_self _ _
    · exact List.mem_cons_of_mem _ (ih x hx)

theorem includeAll_firstOccurrences_aux (inc : Bool → String → Macros → Macros)
    (names : List String) (hinc : Transparent inc names) (hs : List (List String)) :
    (∀ x ∈ hs, ∃ G', Guarded x G' ∧ G' ∈ names) →
    ∀ M : Macros, includeAll inc M hs = includeAll inc M (firstOccurrences hs) := by
  induction hs with
  | nil => intro _ M; rfl
  | cons h hs ih =>
    intro hhs M
    have hhs' : ∀ y ∈ hs, ∃ G', Guarded y G' ∧ G' ∈ names :=
      fun y hy => hhs y (List.mem_cons_of_mem _ hy)
    obtain ⟨G, hg, hG⟩ := hhs h (List.mem_cons_self _ _)
    have hfo : ∀ x ∈ firstOccurrences hs, ∃ G', Guarded x G' ∧ G' ∈ names :=
      fun x hx => hhs' x (mem_firstOccurrences hs x hx)
    simp only [firstOccurrences]
    cases hf : includeFile inc M h with
    | none =>
      rw [includeAll_cons_none inc M h _ hf, includeAll_cons_none inc M h _ hf]
    | some r =>
      obtain ⟨M', out⟩ := r
      have hM' := (includeFile_guard_after inc names hinc h G hg hG M M' out hf).1
      rw [includeAll_cons inc M M' h hs out hf, includeAll_cons inc M M' h _ out hf,
        ih hhs' M', includeAll_filter_seen inc names hinc h G hg hG _ hfo M' hM']

/-- For every sequence of inclusions of the two headers, in any order and any number of
times, and whatever macros are defined, the output and the macros are those of including
each header once, at its first occurrence. -/
theorem includeAll_firstOccurrences (inc : Bool → String → Macros → Macros)
    (M : Macros) (hs : List (List String))
    (hinc : Transparent inc ["TREE_SITTER_GO_H_", "TREE_SITTER_LANGUAGE_H_"])
    (hhs : ∀ h ∈ hs, h = go_h ∨ h = language_h) :
    includeAll inc M hs = includeAll inc M (firstOccurrences hs) := by
  refine includeAll_firstOccurrences_aux inc _ hinc hs (fun x hx => ?_) M
  rcases hhs x hx with rfl | rfl
  · exact ⟨_, guarded_go_h, by simp⟩
  · exact ⟨_, guarded_language_h, by simp⟩


/-! ## The headers' declarations -/

/-- C7: `go.h` is the template `language.h` instantiated for `go`.  Read as directives and
tokens, the instantiated template and `go.h` are the same up to the file their one
`#include` names, and that file is `parser.h` in both; line by line, `go.h` is the
instantiated template with its own include line, followed by an empty line.  Read with the
guard not yet defined and none of the identifiers of the text defined as a macro, both
declare the same single function `tree_sitter_go`, with return type `TSLanguage *`, an
empty parameter list, and inside `extern "C"` exactly when `__cplusplus` is defined. -/
theorem go_h_instantiates_template (inc : Bool → String → Macros → Macros) (M : Macros)
    (hinc : Transparent inc ("__cplusplus" :: textIdents go_h))
    (hM : ∀ t ∈ textIdents go_h, isDefined M t = false)
    (hgo : isDefined M "TREE_SITTER_GO_H_" = false) :
    ((directives (instantiateTemplate "go" language_h)).map forgetInclude =
        (directives go_h).map forgetInclude ∧
      (includesOf (instantiateTemplate "go" language_h)).map (fun p => baseName p.data) =
        ["parser.h".data] ∧
      (includesOf go_h).map (fun p => baseName p.data) = ["parser.h".data] ∧
      go_h = (instantiateTemplate "go" language_h).set 3
        "#include \"src/tree_sitter/parser.h\"" ++ [""] ∧
      textIdents (instantiateTemplate "go" language_h) = textIdents go_h) ∧
    ∃ d : Decl,
      declarations inc M [instantiateTemplate "go" language_h] = some [d] ∧
      declarations inc M [go_h] = some [d] ∧
      d.name = "tree_sitter_go" ∧ d.kind = DeclKind.function ∧
      d.type = CType.ptr (CType.named "TSLanguage") ∧ d.params = [] ∧
      d.inExternC = isDefined M "__cplusplus" := by
  have hn : "tree_sitter_" ++ "go" = "tree_sitter_go" := by decide
  have hsub : ∀ t ∈ ["extern", "TSLanguage", "tree_sitter_" ++ "go"], t ∈ textIdents go_h := by
    decide
  have hf1 := includeFile_clean inc _ hinc (instantiateTemplate "go" language_h)
    "TREE_SITTER_GO_H_" true "tree_sitter/parser.h" "go" (Or.inl instance_go_lines)
    (by decide) M hgo (fun t ht => hM t (hsub t ht))
  have hf2 := includeFile_clean inc _ hinc go_h "TREE_SITTER_GO_H_" false
    "src/tree_sitter/parser.h" "go" (Or.inr go_h_lines) (by decide) M hgo
    (fun t ht => hM t (hsub t ht))
  refine ⟨⟨by decide, by decide, by decide, by decide, by decide⟩,
    entryPoint "go" (dialectOf M), ?_, ?_, hn, rfl, rfl, rfl, ?_⟩
  · simp only [declarations, includeAll, hf1, List.append_nil, isDefined_cplusplus,
      ownDecls_go]
  · simp only [declarations, includeAll, hf2, List.append_nil, isDefined_cplusplus,
      ownDecls_go]
  · rw [isDefined_cplusplus]
    rfl

/-- Witness for C7: a C++ translation unit with no guard defined and an included file
that defines nothing. -/
theorem go_h_instantiates_template_witness :
    (Transparent incNone ("__cplusplus" :: textIdents go_h) ∧
      (∀ t ∈ textIdents go_h,
        isDefined [("__cplusplus", MacroDef.object ["201703L"])] t = false) ∧
      isDefined [("__cplusplus", MacroDef.object ["201703L"])] "TREE_SITTER_GO_H_" = false) ∧
    (((directives (instantiateTemplate "go" language_h)).map forgetInclude =
        (directives go_h).map forgetInclude ∧
      (includesOf (instantiateTemplate "go" language_h)).map (fun p => baseName p.data) =
        ["parser.h".data] ∧
      (includesOf go_h).map (fun p => baseName p.data) = ["parser.h".data] ∧
      go_h = (instantiateTemplate "go" language_h).set 3
        "#include \"src/tree_sitter/parser.h\"" ++ [""] ∧
      textIdents (instantiateTemplate "go" language_h) = textIdents go_h) ∧
    ∃ d : Decl,
      declarations incNone [("__cplusplus", MacroDef.object ["201703L"])]
        [instantiateTemplate "go" language_h] = some [d] ∧
      declarations incNone [("__cplusplus", MacroDef.object ["201703L"])] [go_h] = some [d] ∧
      d.name = "tree_sitter_go" ∧ d.kind = DeclKind.function ∧
      d.type = CType.ptr (CType.named "TSLanguage") ∧ d.params = [] ∧
      d.inExternC = isDefined [("__cplusplus", MacroDef.object ["201703L"])] "__cplusplus") :=
  ⟨⟨transparent_incNone _, by decide, by decide⟩,
    go_h_instantiates_template incNone [("__cplusplus", MacroDef.object ["201703L"])]
      (transparent_incNone _) (by decide) (by decide)⟩

/-- C8: each header is wrapped in its own include guard and the two guards are different
macros.  Whatever macros are defined (`M₀`), including a header `n + 1` times gives the
output, and leaves the macros, of including it once.  Where none of the identifiers of the
headers' text is a macro (`M`), the declarations of the two headers included together, in
either order, are those of each header included alone.  The included `parser.h` is assumed
to leave the two guards, `__cplusplus` and those identifiers alone. -/
theorem include_guards_idempotent_independent
    (inc : Bool → String → Macros → Macros) (M₀ M : Macros) (n : Nat)
    (hinc : Transparent inc ("TREE_SITTER_GO_H_" :: "TREE_SITTER_LANGUAGE_H_" ::
      "__cplusplus" :: (textIdents go_h ++ textIdents language_h)))
    (hM : ∀ t ∈ textIdents go_h ++ textIdents language_h, isDefined M t = false) :
    (guardOf go_h = some "TREE_SITTER_GO_H_" ∧
      guardOf language_h = some "TREE_SITTER_LANGUAGE_H_" ∧
      guardOf go_h ≠ guardOf language_h) ∧
    (includeAll inc M₀ (List.replicate (n + 1) go_h) = includeAll inc M₀ [go_h] ∧
      includeAll inc M₀ (List.replicate (n + 1) language_h) =
        includeAll inc M₀ [language_h]) ∧
    ∃ ds es : List Decl,
      declarations inc M [language_h] = some ds ∧
      declarations inc M [go_h] = some es ∧
      declarations inc M [language_h, go_h] = some (ds ++ es) ∧
      declarations inc M [go_h, language_h] = some (es ++ ds) := by
  have hlg : go_h.map parseLine =
        guardedHeader "TREE_SITTER_GO_H_" false "src/tree_sitter/parser.h" "go" ∨
      go_h.map parseLine =
        guardedHeader "TREE_SITTER_GO_H_" false "src/tree_sitter/parser.h" "go" ++ [.blank] :=
    Or.inr go_h_lines
  have hll : language_h.map parseLine =
        guardedHeader "TREE_SITTER_LANGUAGE_H_" true "tree_sitter/parser.h" "LANGUAGE" ∨
      language_h.map parseLine =
        guardedHeader "TREE_SITTER_LANGUAGE_H_" true "tree_sitter/parser.h" "LANGUAGE" ++
          [.blank] :=
    Or.inl language_h_lines
  refine ⟨⟨by decide, by decide, by decide⟩, ⟨?_, ?_⟩, ?_⟩
  · exact includeAll_replicate inc _ hinc go_h _ guarded_go_h (by simp) M₀ n
  · exact includeAll_replicate inc _ hinc language_h _ guarded_language_h (by simp) M₀ n
  · -- the four cases: each guard defined beforehand or not
    have hMg : ∀ t ∈ ["extern", "TSLanguage", "tree_sitter_" ++ "go"],
        isDefined M t = false :=
      fun t ht => hM t ((by decide : ∀ t ∈ ["extern", "TSLanguage", "tree_sitter_" ++ "go"],
        t ∈ textIdents go_h ++ textIdents language_h) t ht)
    have hMl : ∀ t ∈ ["extern", "TSLanguage", "tree_sitter_" ++ "LANGUAGE"],
        isDefined M t = false :=
      fun t ht => hM t ((by decide :
        ∀ t ∈ ["extern", "TSLanguage", "tree_sitter_" ++ "LANGUAGE"],
          t ∈ textIdents go_h ++ textIdents language_h) t ht)
    -- what is defined after a first inclusion
    have hafter : ∀ (a : Bool) (p G m : String) (M' : Macros),
        m ∈ "TREE_SITTER_GO_H_" :: "TREE_SITTER_LANGUAGE_H_" :: "__cplusplus" ::
          (textIdents go_h ++ textIdents language_h) → m ≠ G →
        isDefined (inc a p ((G, MacroDef.object []) :: M')) m = isDefined M' m :=
      fun a p G m M' hm hne => transparent_after inc _ hinc a p G m _ M' hm hne
    have cleanGo : ∀ M' : Macros, isDefined M' "TREE_SITTER_GO_H_" = false →
        (∀ t ∈ ["extern", "TSLanguage", "tree_sitter_" ++ "go"], isDefined M' t = false) →
        includeFile inc M' go_h =
          some (inc false "src/tree_sitter/parser.h"
              (("TREE_SITTER_GO_H_", MacroDef.object []) :: M'),
            guardedOut false "src/tree_sitter/parser.h" "go" (isDefined M' "__cplusplus")) :=
      fun M' h1 h2 => includeFile_clean inc _ hinc go_h _ _ _ _ hlg (by decide) M' h1 h2
    have cleanLang : ∀ M' : Macros, isDefined M' "TREE_SITTER_LANGUAGE_H_" = false →
        (∀ t ∈ ["extern", "TSLanguage", "tree_sitter_" ++ "LANGUAGE"],
          isDefined M' t = false) →
        includeFile inc M' language_h =
          some (inc true "tree_sitter/parser.h"
              (("TREE_SITTER_LANGUAGE_H_", MacroDef.object []) :: M'),
            guardedOut true "tree_sitter/parser.h" "LANGUAGE"
              (isDefined M' "__cplusplus")) :=
      fun M' h1 h2 => includeFile_clean inc _ hinc language_h _ _ _ _ hll (by decide) M' h1 h2
    have hcg : isDefined (inc false "src/tree_sitter/parser.h"
        (("TREE_SITTER_GO_H_", MacroDef.object []) :: M)) "__cplusplus" =
        isDefined M "__cplusplus" := hafter _ _ _ _ M (by decide) (by decide)
    have hcl : isDefined (inc true "tree_sitter/parser.h"
        (("TREE_SITTER_LANGUAGE_H_", MacroDef.object []) :: M)) "__cplusplus" =
        isDefined M "__cplusplus" := hafter _ _ _ _ M (by decide) (by decide)
    have hgl : isDefined (inc true "tree_sitter/parser.h"
        (("TREE_SITTER_LANGUAGE_H_", MacroDef.object []) :: M)) "TREE_SITTER_GO_H_" =
        isDefined M "TREE_SITTER_GO_H_" := hafter _ _ _ _ M (by decide) (by decide)
    have hlg' : isDefined (inc false "src/tree_sitter/parser.h"
        (("TREE_SITTER_GO_H_", MacroDef.object []) :: M)) "TREE_SITTER_LANGUAGE_H_" =
        isDefined M "TREE_SITTER_LANGUAGE_H_" := hafter _ _ _ _ M (by decide) (by decide)
    have hMg1 : ∀ t ∈ ["extern", "TSLanguage", "tree_sitter_" ++ "go"],
        isDefined (inc true "tree_sitter/parser.h"
          (("TREE_SITTER_LANGUAGE_H_", MacroDef.object []) :: M)) t = false := by
      intro t ht
      have h1 := (by decide : ∀ t ∈ ["extern", "TSLanguage", "tree_sitter_" ++ "go"],
        t ∈ "TREE_SITTER_GO_H_" :: "TREE_SITTER_LANGUAGE_H_" :: "__cplusplus" ::
          (textIdents go_h ++ textIdents language_h) ∧ t ≠ "TREE_SITTER_LANGUAGE_H_") t ht
      rw [hafter _ _ _ t M h1.1 h1.2]
      exact hMg t ht
    have hMl1 : ∀ t ∈ ["extern", "TSLanguage", "tree_sitter_" ++ "LANGUAGE"],
        isDefined (inc false "src/tree_sitter/parser.h"
          (("TREE_SITTER_GO_H_", MacroDef.object []) :: M)) t = false := by
      intro t ht
      have h1 := (by decide : ∀ t ∈ ["extern", "TSLanguage", "tree_sitter_" ++ "LANGUAGE"],
        t ∈ "TREE_SITTER_GO_H_" :: "TREE_SITTER_LANGUAGE_H_" :: "__cplusplus" ::
          (textIdents go_h ++ textIdents language_h) ∧ t ≠ "TREE_SITTER_GO_H_") t ht
      rw [hafter _ _ _ t M h1.1 h1.2]
      exact hMl t ht
    cases hgo : isDefined M "TREE_SITTER_GO_H_" <;>
      cases hlang : isDefined M "TREE_SITTER_LANGUAGE_H_"
    · refine ⟨[entryPoint "LANGUAGE" (dialectOf M)], [entryPoint "go" (dialectOf M)],
        ?_, ?_, ?_, ?_⟩ <;>
        simp only [declarations, includeAll, cleanGo M hgo hMg, cleanLang M hlang hMl,
          cleanGo _ (hgl.trans hgo) hMg1, cleanLang _ (hlg'.trans hlang) hMl1, hcg, hcl,
          List.append_nil, List.nil_append, List.singleton_append, isDefined_cplusplus,
          ownDecls_go, ownDecls_LANGUAGE, ownDecls_LANGUAGE_go, ownDecls_go_LANGUAGE]
    · refine ⟨[], [entryPoint "go" (dialectOf M)], ?_, ?_, ?_, ?_⟩ <;>
        simp only [declarations, includeAll, cleanGo M hgo hMg,
          includeFile_seen inc language_h M _ _ _ _ hll hlang,
          includeFile_seen inc language_h _ _ _ _ _ hll (hlg'.trans hlang),
          List.append_nil, List.nil_append, isDefined_cplusplus,
          ownDecls_nil, ownDecls_go]
    · refine ⟨[entryPoint "LANGUAGE" (dialectOf M)], [], ?_, ?_, ?_, ?_⟩ <;>
        simp only [declarations, includeAll, cleanLang M hlang hMl,
          includeFile_seen inc go_h M _ _ _ _ hlg hgo,
          includeFile_seen inc go_h _ _ _ _ _ hlg (hgl.trans hgo),
          List.append_nil, List.nil_append, isDefined_cplusplus,
          ownDecls_nil, ownDecls_LANGUAGE]
    · refine ⟨[], [], ?_, ?_, ?_, ?_⟩ <;>
        simp only [declarations, includeAll, includeFile_seen inc go_h M _ _ _ _ hlg hgo,
          includeFile_seen inc language_h M _ _ _ _ hll hlang, List.append_nil, ownDecls_nil]

/-- Witness for C8: three inclusions where `tree_sitter_go` is itself a macro, and the two
headers together in a C translation unit with nothing defined, with an included file that
defines nothing. -/
theorem include_guards_idempotent_independent_witness :
    (Transparent incNone ("TREE_SITTER_GO_H_" :: "TREE_SITTER_LANGUAGE_H_" ::
        "__cplusplus" :: (textIdents go_h ++ textIdents language_h)) ∧
      ∀ t ∈ textIdents go_h ++ textIdents language_h, isDefined [] t = false) ∧
    ((guardOf go_h = some "TREE_SITTER_GO_H_" ∧
      guardOf language_h = some "TREE_SITTER_LANGUAGE_H_" ∧
      guardOf go_h ≠ guardOf language_h) ∧
    (includeAll incNone [("tree_sitter_go", MacroDef.object [])]
        (List.replicate (2 + 1) go_h) =
        includeAll incNone [("tree_sitter_go", MacroDef.object [])] [go_h] ∧
      includeAll incNone [("tree_sitter_go", MacroDef.object [])]
        (List.replicate (2 + 1) language_h) =
        includeAll incNone [("tree_sitter_go", MacroDef.object [])] [language_h]) ∧
    ∃ ds es : List Decl,
      declarations incNone [] [language_h] = some ds ∧
      declarations incNone [] [go_h] = some es ∧
      declarations incNone [] [language_h, go_h] = some (ds ++ es) ∧
      declarations incNone [] [go_h, language_h] = some (es ++ ds)) :=
  ⟨⟨transparent_incNone _, by decide⟩,
    include_guards_idempotent_independent incNone [("tree_sitter_go", MacroDef.object [])] []
      2 (transparent_incNone _) (by decide)⟩

end TreeSitterHeaders
